import Mathlib

/-!
# Verification of the Zillow alert-email listing extractor

A shallow embedding of `src/email_monitor.py` (repository `realtor2.0`):
the pure extraction core that converts one HTML alert document into a
deduplicated, ordered list of listing stubs (`ListingLink`), plus the
batch dedup loop of `fetch_new_listing_urls`.

Strings are modelled as `List Char`.  Python `re` searches are modelled by
a small backtracking engine (`RE` / `results` / `reSearch`) whose
alternative ordering matches CPython's leftmost / backtracking-first
semantics for the four concrete patterns the module uses.
-/

set_option maxRecDepth 10000

namespace Realtor

/-- Characters of a string literal. -/
def chars (s : String) : List Char := s.data

/-- Python `\s` for the ASCII range (space, tab, newline, CR, VT, FF). -/
def pySpace (c : Char) : Bool :=
  c = ' ' || c = '\t' || c = '\n' || c = '\r' || c = '\x0b' || c = '\x0c'

/-- Python `str.strip()` (whitespace from both ends). -/
def stripWs (s : List Char) : List Char :=
  ((s.dropWhile pySpace).reverse.dropWhile pySpace).reverse

/-- Python `str.rstrip("/")`. -/
def rstripSlash (s : List Char) : List Char :=
  (s.reverse.dropWhile (· = '/')).reverse

/-- Remove every occurrence of one character (`str.replace(c, "")`). -/
def removeAll (c : Char) (s : List Char) : List Char :=
  s.filter (· ≠ c)

/-- `sub.isPrefixOf s` decided with `=`. -/
def isPrefixAt : List Char → List Char → Bool
  | [], _ => true
  | _ :: _, [] => false
  | p :: ps, c :: cs => p = c && isPrefixAt ps cs

/-- Python `str.find(sub)`: index of the first occurrence, `none` if absent. -/
def pyFind (s sub : List Char) : Option Nat :=
  match s with
  | [] => if isPrefixAt sub [] then some 0 else none
  | c :: r =>
    if isPrefixAt sub (c :: r) then some 0
    else (pyFind r sub).map (· + 1)

/-- Split on one character, keeping empty fields (Python `str.split(c)`). -/
def splitOn (c : Char) : List Char → List (List Char)
  | [] => [[]]
  | d :: r =>
    let rest := splitOn c r
    if d = c then [] :: rest
    else
      match rest with
      | [] => [[d]]
      | f :: fs => (d :: f) :: fs

/-- Digit-run value for the Python `int()` model: after the first digit,
single underscores are allowed between digits (`int("1_000") = 1000`). -/
def digitsVal : Nat → List Char → Option Nat
  | acc, [] => some acc
  | acc, '_' :: c :: r =>
    if c.isDigit then digitsVal (acc * 10 + (c.toNat - '0'.toNat)) r else none
  | _, ['_'] => none
  | acc, c :: r =>
    if c.isDigit then digitsVal (acc * 10 + (c.toNat - '0'.toNat)) r else none

/-- Non-empty digit run (with underscore grouping). -/
def digitsOf : List Char → Option Nat
  | [] => none
  | c :: r => if c.isDigit then digitsVal (c.toNat - '0'.toNat) r else none

/-- Python `int(s)` on ASCII input: optional surrounding whitespace, then an
optional sign, then a non-empty digit run (with underscore grouping). -/
def pyInt (s : List Char) : Option Int :=
  match stripWs s with
  | [] => none
  | c :: r =>
    if c = '-' then (digitsOf r).map (fun n => -(n : Int))
    else if c = '+' then (digitsOf r).map (fun n => (n : Int))
    else (digitsOf (c :: r)).map (fun n => (n : Int))

/-! ## A small backtracking regex engine

Alternatives are produced in CPython's preference order: `alt`/`opt` try the
left / present branch first, `starL` is a lazy char-class star (shortest
first), `starG`/`plus` are greedy (longest first).  `grp` records the text the
sub-expression consumed (the patterns below each have exactly one group). -/

inductive RE : Type where
  | eps : RE
  | lit : List (Char → Bool) → RE
  | seq : RE → RE → RE
  | alt : RE → RE → RE
  | opt : RE → RE
  | starL : (Char → Bool) → RE
  | starG : (Char → Bool) → RE
  | plus : (Char → Bool) → RE
  | grp : RE → RE

/-- Match a sequence of single-char predicates against a prefix. -/
def litMatch : List (Char → Bool) → List Char → Option (List Char)
  | [], s => some s
  | _ :: _, [] => none
  | p :: ps, c :: s => if p c then litMatch ps s else none

/-- Rests after consuming `0, 1, 2, …` class characters (lazy order). -/
def lazySplits (p : Char → Bool) : List Char → List (List Char)
  | [] => [[]]
  | c :: r => (c :: r) :: (if p c then lazySplits p r else [])

/-- Rests after consuming `max, …, 1, 0` class characters (greedy order). -/
def greedySplits (p : Char → Bool) : List Char → List (List Char)
  | [] => [[]]
  | c :: r => (if p c then greedySplits p r else []) ++ [c :: r]

/-- All ways the expression can match a prefix of the input, in backtracking
preference order; each result is the remaining suffix and the capture. -/
def results : RE → List Char → List (List Char × Option (List Char))
  | .eps, s => [(s, none)]
  | .lit ps, s =>
    match litMatch ps s with
    | some r => [(r, none)]
    | none => []
  | .seq a b, s =>
    (results a s).flatMap fun x =>
      (results b x.1).map fun y => (y.1, x.2.orElse (fun _ => y.2))
  | .alt a b, s => results a s ++ results b s
  | .opt a, s => results a s ++ [(s, none)]
  | .starL p, s => (lazySplits p s).map (fun r => (r, none))
  | .starG p, s => (greedySplits p s).map (fun r => (r, none))
  | .plus p, s =>
    match s with
    | [] => []
    | c :: r => if p c then (greedySplits p r).map (fun t => (t, none)) else []
  | .grp a, s =>
    (results a s).map fun x => (x.1, some (s.take (s.length - x.1.length)))

/-- `re.search`: leftmost match.  Returns (full match, rest, capture). -/
def reSearch (re : RE) : List Char → Option (List Char × List Char × Option (List Char))
  | [] =>
    match results re [] with
    | [] => none
    | (r, c) :: _ => some ([], r, c)
  | c :: rest =>
    match results re (c :: rest) with
    | [] => reSearch re rest
    | (r, cap) :: _ =>
      some ((c :: rest).take ((c :: rest).length - r.length), r, cap)

/-- One step of `re.finditer` iteration with explicit fuel. -/
def reFindAllGo (re : RE) : Nat → List Char → List (List Char × Option (List Char))
  | 0, _ => []
  | fuel + 1, s =>
    match reSearch re s with
    | none => []
    | some (full, rest, cap) =>
      if full = [] then [] else (full, cap) :: reFindAllGo re fuel rest

/-- `re.finditer`: successive non-overlapping matches (all patterns used here
match at least one character, so the empty-match guard never fires). -/
def reFindAll (re : RE) (s : List Char) : List (List Char × Option (List Char)) :=
  reFindAllGo re (s.length + 1) s

/-! ## The module's four patterns -/

/-- Case-insensitive literal character. -/
def isI (c : Char) (d : Char) : Bool := d.toLower = c

/-- Exact literal character. -/
def isE (c : Char) (d : Char) : Bool := d = c

def litI (s : String) : RE := .lit (s.data.map isI)

def litE (s : String) : RE := .lit (s.data.map isE)

/-- `[^\s\"'<>]` — the slug class of the primary URL pattern. -/
def urlCh (c : Char) : Bool :=
  !(pySpace c) && c ≠ '"' && c ≠ '\'' && c ≠ '<' && c ≠ '>'

def isDigitCh (c : Char) : Bool := c.isDigit

def isWordCh (c : Char) : Bool := c.isAlphanum || c = '_'

/-- `.` without DOTALL. -/
def dotCh (c : Char) : Bool := c ≠ '\n'

def isUpperAZ (c : Char) : Bool := 'A' ≤ c && c ≤ 'Z'

/-- `ZILLOW_URL_PATTERN`:
`https?://(?:www\.)?zillow\.com/homedetails/(?:[^\s\"'<>]*?/)?(\d+)_zpid/?`,
case-insensitive. -/
def zillowRE : RE :=
  .seq (litI "http")
    (.seq (.opt (litI "s"))
      (.seq (litI "://")
        (.seq (.opt (litI "www."))
          (.seq (litI "zillow.com/homedetails/")
            (.seq (.opt (.seq (.starL urlCh) (litE "/")))
              (.seq (.grp (.plus isDigitCh))
                (.seq (litI "_zpid") (.opt (litE "/")))))))))

/-- `ZPID_TARGET_PATTERN`: `zpid_target(?:/|%2F)(\d+)_zpid`, case-insensitive. -/
def zpidTargetRE : RE :=
  .seq (litI "zpid_target")
    (.seq (.alt (litE "/") (litI "%2f"))
      (.seq (.grp (.plus isDigitCh)) (litI "_zpid")))

/-- Address-line heuristic: `\d+\s+\w+.*,\s*\w+.*,\s*[A-Z]{2}` (`re.match`). -/
def addressRE : RE :=
  .seq (.plus isDigitCh)
    (.seq (.plus pySpace)
      (.seq (.plus isWordCh)
        (.seq (.starG dotCh)
          (.seq (litE ",")
            (.seq (.starG pySpace)
              (.seq (.plus isWordCh)
                (.seq (.starG dotCh)
                  (.seq (litE ",")
                    (.seq (.starG pySpace)
                      (.seq (.lit [isUpperAZ]) (.lit [isUpperAZ])))))))))))

/-- `[^/]` — the slug class of the address-slug pattern. -/
def nonSlash (c : Char) : Bool := c ≠ '/'

/-- Trailer of the slug pattern: `/\d+_zpid`. -/
def slugAfterRE : RE :=
  .seq (litE "/") (.seq (.plus isDigitCh) (litE "_zpid"))

/-- Slug pattern without its leading literal: `([^/]+)/\d+_zpid`. -/
def slugTailRE : RE :=
  .seq (.grp (.plus nonSlash)) slugAfterRE

/-- Slug pattern of `_address_from_url`: `/homedetails/([^/]+)/\d+_zpid`. -/
def slugRE : RE :=
  .seq (litE "/homedetails/") slugTailRE

/-- `re.match(pattern, line)` as a Boolean (anchored at the start). -/
def reMatchB (re : RE) (s : List Char) : Bool :=
  !(results re s).isEmpty

/-! ## HTML model

A tag-soup parser sufficient for the vendor documents: text, open tags with
double-quoted (or valueless) attributes, self-closing tags, close tags.
Unmatched close tags are ignored; open elements are auto-closed at the end,
as lxml's recovering parser does on the document family in scope. -/

inductive Tok : Type where
  | text : List Char → Tok
  | openT : List Char → List (List Char × List Char) → Bool → Tok
  | closeT : List Char → Tok

/-- Attribute list inside a tag (after the name), with fuel. -/
def parseAttrs : Nat → List Char → List (List Char × List Char)
  | 0, _ => []
  | _ + 1, [] => []
  | fuel + 1, c :: r =>
    if pySpace c || c = '/' then parseAttrs fuel r
    else
      let nmP := fun d => !(pySpace d) && d ≠ '=' && d ≠ '/'
      let nm := (c :: r).takeWhile nmP
      let rest := (c :: r).dropWhile nmP
      match rest with
      | '=' :: '"' :: v =>
        let val := v.takeWhile (· ≠ '"')
        let rest2 := (v.dropWhile (· ≠ '"')).drop 1
        (nm, val) :: parseAttrs fuel rest2
      | '=' :: v =>
        let val := v.takeWhile (fun d => !(pySpace d))
        let rest2 := v.dropWhile (fun d => !(pySpace d))
        (nm, val) :: parseAttrs fuel rest2
      | _ => (nm, []) :: parseAttrs fuel rest

/-- Interpret the characters between `<` and `>`. -/
def parseTag (inner : List Char) : Tok :=
  match inner with
  | '/' :: r => .closeT ((stripWs r).takeWhile (fun d => !(pySpace d)))
  | _ =>
    let nmP := fun d => !(pySpace d) && d ≠ '/'
    let nm := inner.takeWhile nmP
    let rest := inner.dropWhile nmP
    .openT nm (parseAttrs (rest.length + 1) rest) (inner.getLast? = some '/')

def emitText (acc : List Char) : List Tok :=
  if acc.isEmpty then [] else [.text acc]

/-- Tokenizer: `inTag = false` accumulates text until `<`; `inTag = true`
accumulates tag content until `>`.  An unterminated tag is dropped. -/
def tokGo : Bool → List Char → List Char → List Tok
  | false, acc, [] => emitText acc
  | false, acc, c :: r =>
    if c = '<' then emitText acc ++ tokGo true [] r
    else tokGo false (acc ++ [c]) r
  | true, _, [] => []
  | true, acc, c :: r =>
    if c = '>' then parseTag acc :: tokGo false [] r
    else tokGo true (acc ++ [c]) r

def tokenize (s : List Char) : List Tok := tokGo false [] s

inductive Node : Type where
  | text : List Char → Node
  | elem : List Char → List (List Char × List Char) → List Node → Node

/-- An open-element stack frame: tag, attributes, children accumulated so far. -/
abbrev Frame := List Char × List (List Char × List Char) × List Node

/-- Attach a finished node to the innermost open element (or to the roots). -/
def addChild (n : Node) : List Frame → List Node → List Frame × List Node
  | [], roots => ([], roots ++ [n])
  | (t, a, cs) :: st, roots => ((t, a, cs ++ [n]) :: st, roots)

/-- Pop open frames, absorbing the pending node, until a frame with this tag
has been closed (helper of `closeUntil`, carrying the pending node). -/
def closeCarry (nm : List Char) (n : Node) : List Frame → List Node → List Frame × List Node
  | [], roots => ([], roots ++ [n])
  | (t, a, cs) :: st, roots =>
    let n' := Node.elem t a (cs ++ [n])
    if t = nm then addChild n' st roots else closeCarry nm n' st roots

/-- Pop open elements until (and including) the first frame with this tag. -/
def closeUntil (nm : List Char) : List Frame → List Node → List Frame × List Node
  | [], roots => ([], roots)
  | (t, a, cs) :: st, roots =>
    if t = nm then addChild (.elem t a cs) st roots
    else closeCarry nm (.elem t a cs) st roots

/-- Auto-close every remaining open element (helper carrying the pending node). -/
def unwindCarry (n : Node) : List Frame → List Node → List Node
  | [], roots => roots ++ [n]
  | (t, a, cs) :: st, roots => unwindCarry (.elem t a (cs ++ [n])) st roots

/-- Auto-close every remaining open element. -/
def unwindAll : List Frame → List Node → List Node
  | [], roots => roots
  | (t, a, cs) :: st, roots => unwindCarry (.elem t a cs) st roots

def buildGo : List Tok → List Frame → List Node → List Node
  | [], st, roots => unwindAll st roots
  | .text s :: ts, st, roots =>
    let p := addChild (.text s) st roots
    buildGo ts p.1 p.2
  | .openT nm attrs true :: ts, st, roots =>
    let p := addChild (.elem nm attrs []) st roots
    buildGo ts p.1 p.2
  | .openT nm attrs false :: ts, st, roots =>
    buildGo ts ((nm, attrs, []) :: st) roots
  | .closeT nm :: ts, st, roots =>
    if st.any (fun f => f.1 = nm) then
      let p := closeUntil nm st roots
      buildGo ts p.1 p.2
    else buildGo ts st roots

def parseHTML (s : List Char) : List Node := buildGo (tokenize s) [] []

mutual

/-- Pre-order list of element nodes of a subtree (including the root). -/
def elemsOfNode : Node → List Node
  | .text _ => []
  | .elem t a cs => .elem t a cs :: elemsOfNodes cs

def elemsOfNodes : List Node → List Node
  | [] => []
  | n :: ns => elemsOfNode n ++ elemsOfNodes ns

end

mutual

/-- Text-node strings of a subtree, in document order. -/
def textsOfNode : Node → List (List Char)
  | .text s => [s]
  | .elem _ _ cs => textsOfNodes cs

def textsOfNodes : List Node → List (List Char)
  | [] => []
  | n :: ns => textsOfNode n ++ textsOfNodes ns

end

def serializeAttrs : List (List Char × List Char) → List Char
  | [] => []
  | (k, v) :: rest => ' ' :: (k ++ ('=' :: '"' :: (v ++ ('"' :: serializeAttrs rest))))

mutual

/-- `str(tag)`: serialization of a subtree back to markup. -/
def serializeNode : Node → List Char
  | .text s => s
  | .elem t a cs =>
    '<' :: (t ++ serializeAttrs a ++ ['>']) ++ serializeNodes cs ++ ('<' :: '/' :: (t ++ ['>']))

def serializeNodes : List Node → List Char
  | [] => []
  | n :: ns => serializeNode n ++ serializeNodes ns

end

def lookupAttr (nm : List Char) : List (List Char × List Char) → Option (List Char)
  | [] => none
  | (k, v) :: rest => if k = nm then some v else lookupAttr nm rest

def containsSub (s sub : List Char) : Bool := (pyFind s sub).isSome

/-- `soup.find_all("table", class_=re.compile(r"mw50[24]"))` membership test:
a `table` element whose `class` attribute matches `mw50[24]`. -/
def isCardTable : Node → Bool
  | .elem t attrs _ =>
    t = chars "table" &&
      (match lookupAttr (chars "class") attrs with
       | some v => containsSub v (chars "mw502") || containsSub v (chars "mw504")
       | none => false)
  | _ => false

/-- First descendant `<h5>` of a block (`block.find("h5")`). -/
def firstH5 (block : Node) : Option Node :=
  (match block with
   | .elem _ _ cs => elemsOfNodes cs
   | .text _ => []).find? (fun n =>
     match n with
     | .elem t _ _ => t = chars "h5"
     | _ => false)

/-- `get_text(separator="\n", strip=True)`. -/
def getTextLines (n : Node) : List Char :=
  List.intercalate ['\n'] (((textsOfNode n).map stripWs).filter (fun l => !l.isEmpty))

/-- `get_text(strip=True)`. -/
def getTextConcat (n : Node) : List Char :=
  (((textsOfNode n).map stripWs).filter (fun l => !l.isEmpty)).flatten

/-! ## The extraction pipeline -/

/-- The unit of output (`ListingLink` dataclass). -/
structure ListingLink where
  url : List Char
  zpid : List Char
  address : List Char
  price : Int
deriving DecidableEq

def recMarker : List Char := chars "Our recommendations for you"

def simMarker : List Char := chars "Check out these similar homes"

/-- The marker loop of `_extract_listing_data_from_html` (lines 54-60):
truncate at the first marker found, in priority order. -/
def preprocess (html : List Char) : List Char :=
  match pyFind html recMarker with
  | some i => html.take i
  | none =>
    match pyFind html simMarker with
    | some j => html.take j
    | none => html

def addrLinesGo : List (List Char) → List Char
  | [] => []
  | l :: ls =>
    let l' := stripWs l
    if reMatchB addressRE l' then l' else addrLinesGo ls

/-- `_extract_address_from_block`. -/
def extract_address_from_block (block : Node) : List Char :=
  addrLinesGo (splitOn '\n' (getTextLines block))

/-- `_extract_price_from_block`. -/
def extract_price_from_block (block : Node) : Int :=
  match firstH5 block with
  | none => 0
  | some h =>
    match pyInt (removeAll ',' (removeAll '$' (getTextConcat h))) with
    | some n => n
    | none => 0

def templateUrl (z : List Char) : List Char :=
  chars "https://www.zillow.com/homedetails/" ++ z ++ chars "_zpid/"

/-- `_address_from_url`. -/
def address_from_url (url : List Char) : List Char :=
  match reSearch slugRE url with
  | some (_, _, some slug) => slug.map (fun c => if c = '-' then ' ' else c)
  | _ => []

/-- The per-table identifier/URL logic (lines 72-88): primary pattern on the
serialized block first, then the `zpid_target` fallback with a synthesized
canonical URL. -/
def tryTable (t : Node) : Option (List Char × List Char) :=
  let bh := serializeNode t
  match reSearch zillowRE bh with
  | some (full, _, some z) => some (rstripSlash full ++ ['/'], z)
  | some (_, _, none) => none
  | none =>
    match reSearch zpidTargetRE bh with
    | some (_, _, some z) => some (templateUrl z, z)
    | _ => none

/-- Stub construction for a structured block (lines 91-98). -/
def mkLink (t : Node) (url z : List Char) : ListingLink :=
  let a := extract_address_from_block t
  { url := url, zpid := z,
    address := if a.isEmpty then address_from_url url else a,
    price := extract_price_from_block t }

/-- Strategy-1 loop over matched card tables, threading the seen-set. -/
def structGo : List Node → List (List Char) → List ListingLink × List (List Char)
  | [], seen => ([], seen)
  | t :: ts, seen =>
    match tryTable t with
    | none => structGo ts seen
    | some (url, z) =>
      if z ∈ seen then structGo ts seen
      else
        let p := structGo ts (z :: seen)
        (mkLink t url z :: p.1, p.2)

/-- Stub built in the fallback (no block context, `price = 0`). -/
def fallbackLink (url z : List Char) : ListingLink :=
  { url := url, zpid := z, address := address_from_url url, price := 0 }

/-- `href` values of all `<a href=...>` elements, in document order. -/
def anchorHrefs (nodes : List Node) : List (List Char) :=
  (elemsOfNodes nodes).filterMap fun n =>
    match n with
    | .elem t attrs _ => if t = chars "a" then lookupAttr (chars "href") attrs else none
    | _ => none

/-- Fallback pass 1: primary pattern against each anchor target. -/
def hrefGo : List (List Char) → List (List Char) → List ListingLink × List (List Char)
  | [], seen => ([], seen)
  | href :: hs, seen =>
    match reSearch zillowRE href with
    | some (full, _, some z) =>
      if z ∈ seen then hrefGo hs seen
      else
        let url := rstripSlash full ++ ['/']
        let p := hrefGo hs (z :: seen)
        (fallbackLink url z :: p.1, p.2)
    | _ => hrefGo hs seen

/-- Fallback pass 2: all primary-pattern matches of a raw text. -/
def rawGo : List (List Char × Option (List Char)) → List (List Char) → List ListingLink × List (List Char)
  | [], seen => ([], seen)
  | (full, cap) :: ms, seen =>
    match cap with
    | some z =>
      if z ∈ seen then rawGo ms seen
      else
        let url := rstripSlash full ++ ['/']
        let p := rawGo ms (z :: seen)
        (fallbackLink url z :: p.1, p.2)
    | none => rawGo ms seen

/-- `_extract_urls_with_address_fallback(soup, html, seen_zpids)`: scans the
parsed (truncated) tree's anchors, then the raw text it is handed. -/
def extract_urls_with_address_fallback (nodes : List Node) (html : List Char)
    (seen : List (List Char)) : List ListingLink :=
  let p1 := hrefGo (anchorHrefs nodes) seen
  let p2 := rawGo (reFindAll zillowRE html) p1.2
  p1.1 ++ p2.1

/-- `_extract_listing_data_from_html`.  Note: as at line 103 of the source,
the fallback receives the original `html`, while the tree comes from the
truncated `parse_html`. -/
def extract_listing_data_from_html (html : List Char) : List ListingLink :=
  let parse_html := preprocess html
  let nodes := parseHTML parse_html
  let tables := (elemsOfNodes nodes).filter isCardTable
  let p := structGo tables []
  if p.1.isEmpty then extract_urls_with_address_fallback nodes html p.2
  else p.1

/-- First-occurrence-wins filtering against a seen-set, returning the kept
stubs and the extended seen-set (the `for link in links` loop body of
`fetch_new_listing_urls`). -/
def dedupStep : List ListingLink → List (List Char) → List ListingLink × List (List Char)
  | [], seen => ([], seen)
  | l :: ls, seen =>
    if l.zpid ∈ seen then dedupStep ls seen
    else
      let p := dedupStep ls (l.zpid :: seen)
      (l :: p.1, p.2)

def batchGo : List (List Char) → List (List Char) → List ListingLink
  | [], _ => []
  | doc :: docs, seen =>
    let p := dedupStep (extract_listing_data_from_html doc) seen
    p.1 ++ batchGo docs p.2

/-- The per-message dedup loop of `fetch_new_listing_urls` (lines 230-252),
with the IMAP transport abstracted to the list of decoded HTML bodies. -/
def fetch_new_listing_urls (docs : List (List Char)) : List ListingLink :=
  batchGo docs []

/-! ## Concrete documents used in the theorems -/

/-- A document whose marker sits at offset 0 and whose only identifier occurs
strictly after the marker, with no card tables (so the fallback activates). -/
def c1doc : List Char :=
  chars "Check out these similar homes https://www.zillow.com/homedetails/123_zpid/"

/-- A document containing the similar-homes marker (offset 0) before the
recommendations marker (offset 30). -/
def c3doc : List Char :=
  chars "Check out these similar homesXOur recommendations for you TAIL"

/-- A document whose only listing link is scheme-relative. -/
def c4relDoc : List Char :=
  chars "<html><body><a href=\"//www.zillow.com/homedetails/9-Oak-Ln-Derry-NH/777_zpid/\">x</a></body></html>"

/-- The same document with an absolute (upper-case scheme) link. -/
def c4absDoc : List Char :=
  chars "<html><body><a href=\"HTTPS://www.zillow.com/homedetails/9-Oak-Ln-Derry-NH/777_zpid/\">x</a></body></html>"

/-- A card table whose `<h5>` price display is the negative literal `-5`. -/
def c5doc : List Char :=
  chars "<table class=\"mw502\"><a href=\"https://www.zillow.com/homedetails/1_zpid/\">x</a><h5>-5</h5></table>"

/-- A block with price display `$485,000`. -/
def blk485 : Node :=
  .elem (chars "td") [] [.elem (chars "h5") [] [.text (chars "$485,000")]]

/-- A block with price display `TBD`. -/
def blkTBD : Node :=
  .elem (chars "td") [] [.elem (chars "h5") [] [.text (chars "TBD")]]

/-- A block with no price element. -/
def blkNoPrice : Node :=
  .elem (chars "td") [] [.elem (chars "p") [] [.text (chars "hello")]]

/-- A card table matched only by the secondary (`zpid_target`) pattern. -/
def t7 : Node :=
  .elem (chars "table") [(chars "class", chars "mw504")]
    [.text (chars "zpid_target/113449928_zpid")]

/-- The fallback-activation document of the spec: no card containers, one
anchor to `/homedetails/99-Pine-Ave-Nashua-NH/55555555_zpid/`. -/
def c8doc : List Char :=
  chars "<html><body><a href=\"https://www.zillow.com/homedetails/99-Pine-Ave-Nashua-NH/55555555_zpid/\">View</a></body></html>"


/-! ## Seen-set / deduplication lemmas -/

theorem dedupStep_append (xs ys : List ListingLink) (seen : List (List Char)) :
    dedupStep (xs ++ ys) seen =
      ((dedupStep xs seen).1 ++ (dedupStep ys (dedupStep xs seen).2).1,
       (dedupStep ys (dedupStep xs seen).2).2) := by
  induction xs generalizing seen with
  | nil => simp [dedupStep]
  | cons l ls ih =>
    by_cases h : l.zpid ∈ seen
    · simp [dedupStep, h, ih]
    · simp [dedupStep, h, ih]

theorem batchGo_eq (docs : List (List Char)) (seen : List (List Char)) :
    batchGo docs seen =
      (dedupStep (docs.flatMap extract_listing_data_from_html) seen).1 := by
  induction docs generalizing seen with
  | nil => simp [batchGo, dedupStep]
  | cons d ds ih => simp [batchGo, dedupStep_append, ih]

theorem dedupStep_zpid_spec (ls : List ListingLink) (seen : List (List Char)) :
    ((dedupStep ls seen).1.map ListingLink.zpid).Nodup ∧
      ∀ z ∈ (dedupStep ls seen).1.map ListingLink.zpid, z ∉ seen := by
  induction ls generalizing seen with
  | nil => simp [dedupStep]
  | cons l ls ih =>
    by_cases h : l.zpid ∈ seen
    · simpa [dedupStep, h] using ih seen
    · obtain ⟨hnd, hns⟩ := ih (l.zpid :: seen)
      have hstep : dedupStep (l :: ls) seen =
          (l :: (dedupStep ls (l.zpid :: seen)).1,
           (dedupStep ls (l.zpid :: seen)).2) := by
        simp [dedupStep, h]
      rw [hstep]
      refine ⟨?_, ?_⟩
      · simp only [List.map_cons, List.nodup_cons]
        exact ⟨fun hmem => (hns _ hmem) (List.mem_cons_self _ _), hnd⟩
      · intro z hz
        simp only [List.map_cons, List.mem_cons] at hz
        rcases hz with rfl | hz
        · exact h
        · exact fun hzs => (hns z hz) (List.mem_cons_of_mem _ hzs)

theorem structGo_spec (ts : List Node) (seen : List (List Char)) :
    ((structGo ts seen).1.map ListingLink.zpid).Nodup ∧
      (∀ z ∈ (structGo ts seen).1.map ListingLink.zpid, z ∉ seen) ∧
      (∀ z ∈ (structGo ts seen).1.map ListingLink.zpid, z ∈ (structGo ts seen).2) ∧
      (∀ z ∈ seen, z ∈ (structGo ts seen).2) := by
  induction ts generalizing seen with
  | nil => simp [structGo]
  | cons t ts ih =>
    cases htt : tryTable t with
    | none => simpa [structGo, htt] using ih seen
    | some uz =>
      obtain ⟨url, z⟩ := uz
      by_cases h : z ∈ seen
      · simpa [structGo, htt, h] using ih seen
      · obtain ⟨hnd, hns, hsub, hmono⟩ := ih (z :: seen)
        have hstep : structGo (t :: ts) seen =
            (mkLink t url z :: (structGo ts (z :: seen)).1,
             (structGo ts (z :: seen)).2) := by
          simp [structGo, htt, h]
        have hzp : (mkLink t url z).zpid = z := rfl
        rw [hstep]
        refine ⟨?_, ?_, ?_, ?_⟩
        · simp only [List.map_cons, List.nodup_cons, hzp]
          exact ⟨fun hmem => (hns _ hmem) (List.mem_cons_self _ _), hnd⟩
        · intro w hw
          simp only [List.map_cons, List.mem_cons, hzp] at hw
          rcases hw with rfl | hw
          · exact h
          · exact fun hws => (hns w hw) (List.mem_cons_of_mem _ hws)
        · intro w hw
          simp only [List.map_cons, List.mem_cons, hzp] at hw
          rcases hw with rfl | hw
          · exact hmono _ (List.mem_cons_self _ _)
          · exact hsub w hw
        · intro w hw
          exact hmono _ (List.mem_cons_of_mem _ hw)

theorem hrefGo_spec (hs : List (List Char)) (seen : List (List Char)) :
    ((hrefGo hs seen).1.map ListingLink.zpid).Nodup ∧
      (∀ z ∈ (hrefGo hs seen).1.map ListingLink.zpid, z ∉ seen) ∧
      (∀ z ∈ (hrefGo hs seen).1.map ListingLink.zpid, z ∈ (hrefGo hs seen).2) ∧
      (∀ z ∈ seen, z ∈ (hrefGo hs seen).2) := by
  induction hs generalizing seen with
  | nil => simp [hrefGo]
  | cons href hs ih =>
    cases hsr : reSearch zillowRE href with
    | none => simpa [hrefGo, hsr] using ih seen
    | some m =>
      obtain ⟨full, rest, cap⟩ := m
      cases cap with
      | none => simpa [hrefGo, hsr] using ih seen
      | some z =>
        by_cases h : z ∈ seen
        · simpa [hrefGo, hsr, h] using ih seen
        · obtain ⟨hnd, hns, hsub, hmono⟩ := ih (z :: seen)
          have hstep : hrefGo (href :: hs) seen =
              (fallbackLink (rstripSlash full ++ ['/']) z :: (hrefGo hs (z :: seen)).1,
               (hrefGo hs (z :: seen)).2) := by
            simp [hrefGo, hsr, h]
          have hzp : (fallbackLink (rstripSlash full ++ ['/']) z).zpid = z := rfl
          rw [hstep]
          refine ⟨?_, ?_, ?_, ?_⟩
          · simp only [List.map_cons, List.nodup_cons, hzp]
            exact ⟨fun hmem => (hns _ hmem) (List.mem_cons_self _ _), hnd⟩
          · intro w hw
            simp only [List.map_cons, List.mem_cons, hzp] at hw
            rcases hw with rfl | hw
            · exact h
            · exact fun hws => (hns w hw) (List.mem_cons_of_mem _ hws)
          · intro w hw
            simp only [List.map_cons, List.mem_cons, hzp] at hw
            rcases hw with rfl | hw
            · exact hmono _ (List.mem_cons_self _ _)
            · exact hsub w hw
          · intro w hw
            exact hmono _ (List.mem_cons_of_mem _ hw)

theorem rawGo_spec (ms : List (List Char × Option (List Char))) (seen : List (List Char)) :
    ((rawGo ms seen).1.map ListingLink.zpid).Nodup ∧
      (∀ z ∈ (rawGo ms seen).1.map ListingLink.zpid, z ∉ seen) ∧
      (∀ z ∈ (rawGo ms seen).1.map ListingLink.zpid, z ∈ (rawGo ms seen).2) ∧
      (∀ z ∈ seen, z ∈ (rawGo ms seen).2) := by
  induction ms generalizing seen with
  | nil => simp [rawGo]
  | cons m ms ih =>
    obtain ⟨full, cap⟩ := m
    cases cap with
    | none => simpa [rawGo] using ih seen
    | some z =>
      by_cases h : z ∈ seen
      · simpa [rawGo, h] using ih seen
      · obtain ⟨hnd, hns, hsub, hmono⟩ := ih (z :: seen)
        have hstep : rawGo ((full, some z) :: ms) seen =
            (fallbackLink (rstripSlash full ++ ['/']) z :: (rawGo ms (z :: seen)).1,
             (rawGo ms (z :: seen)).2) := by
          simp [rawGo, h]
        have hzp : (fallbackLink (rstripSlash full ++ ['/']) z).zpid = z := rfl
        rw [hstep]
        refine ⟨?_, ?_, ?_, ?_⟩
        · simp only [List.map_cons, List.nodup_cons, hzp]
          exact ⟨fun hmem => (hns _ hmem) (List.mem_cons_self _ _), hnd⟩
        · intro w hw
          simp only [List.map_cons, List.mem_cons, hzp] at hw
          rcases hw with rfl | hw
          · exact h
          · exact fun hws => (hns w hw) (List.mem_cons_of_mem _ hws)
        · intro w hw
          simp only [List.map_cons, List.mem_cons, hzp] at hw
          rcases hw with rfl | hw
          · exact hmono _ (List.mem_cons_self _ _)
          · exact hsub w hw
        · intro w hw
          exact hmono _ (List.mem_cons_of_mem _ hw)

theorem fallback_zpids_nodup (nodes : List Node) (html : List Char)
    (seen : List (List Char)) :
    ((extract_urls_with_address_fallback nodes html seen).map ListingLink.zpid).Nodup := by
  unfold extract_urls_with_address_fallback
  obtain ⟨h1nd, _, h1sub, _⟩ := hrefGo_spec (anchorHrefs nodes) seen
  obtain ⟨h2nd, h2ns, _, _⟩ :=
    rawGo_spec (reFindAll zillowRE html) (hrefGo (anchorHrefs nodes) seen).2
  simp only [List.map_append]
  exact List.Nodup.append h1nd h2nd
    (fun z hz1 hz2 => (h2ns z hz2) (h1sub z hz1))

theorem extract_zpids_nodup (doc : List Char) :
    ((extract_listing_data_from_html doc).map ListingLink.zpid).Nodup := by
  unfold extract_listing_data_from_html
  dsimp only
  split
  · exact fallback_zpids_nodup _ _ _
  · exact (structGo_spec _ _).1

/-! ## Sign lemmas for the price parser -/

theorem mem_stripWs {a : Char} {s : List Char} (h : a ∈ stripWs s) : a ∈ s := by
  unfold stripWs at h
  rw [List.mem_reverse] at h
  have h2 := (List.dropWhile_sublist (l := (s.dropWhile pySpace).reverse)
    (p := pySpace)).mem h
  rw [List.mem_reverse] at h2
  exact (List.dropWhile_sublist (l := s) (p := pySpace)).mem h2

theorem pyInt_neg {s : List Char} {n : Int} (h : pyInt s = some n) (hn : n < 0) :
    '-' ∈ s := by
  unfold pyInt at h
  rcases hs : stripWs s with _ | ⟨c, r⟩
  · rw [hs] at h
    cases h
  · rw [hs] at h
    dsimp only at h
    by_cases hc : c = '-'
    · subst hc
      exact mem_stripWs (hs ▸ List.mem_cons_self _ _)
    · rw [if_neg hc] at h
      exfalso
      by_cases hp : c = '+'
      · rw [if_pos hp] at h
        rcases hd : digitsOf r with _ | m
        · rw [hd] at h
          cases h
        · rw [hd] at h
          simp at h
          omega
      · rw [if_neg hp] at h
        rcases hd : digitsOf (c :: r) with _ | m
        · rw [hd] at h
          cases h
        · rw [hd] at h
          simp at h
          omega

theorem mem_removeAll {a c : Char} {s : List Char} (h : a ∈ removeAll c s) : a ∈ s :=
  List.mem_of_mem_filter h

/-! ## Whitespace-document lemmas -/

theorem pyFind_whitespace (s : List Char) (hs : ∀ c ∈ s, pySpace c = true)
    (c0 : Char) (cs : List Char) (hc : pySpace c0 = false) :
    pyFind s (c0 :: cs) = none := by
  induction s with
  | nil => simp [pyFind, isPrefixAt]
  | cons d r ih =>
    have hd : pySpace d = true := hs d (List.mem_cons_self _ _)
    have hne : (c0 = d) = False := by
      by_contra hcontra
      simp only [eq_iff_iff, iff_false] at hcontra
      push_neg at hcontra
      rw [hcontra] at hc
      rw [hc] at hd
      cases hd
    have hpre : isPrefixAt (c0 :: cs) (d :: r) = false := by
      simp [isPrefixAt, hne]
    rw [pyFind, hpre]
    simp [ih (fun c hcr => hs c (List.mem_cons_of_mem _ hcr))]

theorem preprocess_whitespace (s : List Char) (hs : ∀ c ∈ s, pySpace c = true) :
    preprocess s = s := by
  have h1 : pyFind s recMarker = none := by
    rw [show recMarker = 'O' :: chars "ur recommendations for you" from rfl]
    exact pyFind_whitespace s hs _ _ (by decide)
  have h2 : pyFind s simMarker = none := by
    rw [show simMarker = 'C' :: chars "heck out these similar homes" from rfl]
    exact pyFind_whitespace s hs _ _ (by decide)
  unfold preprocess
  rw [h1, h2]

theorem tokGo_text (rest : List Char) (hs : ∀ c ∈ rest, pySpace c = true)
    (acc : List Char) : tokGo false acc rest = emitText (acc ++ rest) := by
  induction rest generalizing acc with
  | nil => simp [tokGo]
  | cons c r ih =>
    have hc : pySpace c = true := hs c (List.mem_cons_self _ _)
    have hne : (c = '<') = False := by
      by_contra hcontra
      simp only [eq_iff_iff, iff_false] at hcontra
      push_neg at hcontra
      rw [hcontra] at hc
      cases hc
    rw [tokGo]
    simp only [hne, if_false]
    rw [ih (fun d hd => hs d (List.mem_cons_of_mem _ hd)) (acc ++ [c])]
    simp

theorem toLower_ne_of_whitespace (c : Char) (hc : pySpace c = true) (d : Char)
    (hd : pySpace d = false) : isI d c = false := by
  simp only [pySpace, Bool.or_eq_true, decide_eq_true_eq] at hc
  rcases hc with ((((rfl | rfl) | rfl) | rfl) | rfl) | rfl <;>
    · simp only [isI]
      by_contra h
      simp only [Bool.not_eq_false, decide_eq_true_eq] at h
      rw [← h] at hd
      cases hd

theorem results_zillow_whitespace_head (c : Char) (hc : pySpace c = true)
    (r : List Char) : results zillowRE (c :: r) = [] := by
  have hlit : litMatch (chars "http" |>.map isI) (c :: r) = none := by
    have : isI 'h' c = false := toLower_ne_of_whitespace c hc 'h' (by decide)
    simp [chars, litMatch, this]
  rw [show zillowRE = .seq (litI "http")
    (.seq (.opt (litI "s"))
      (.seq (litI "://")
        (.seq (.opt (litI "www."))
          (.seq (litI "zillow.com/homedetails/")
            (.seq (.opt (.seq (.starL urlCh) (litE "/")))
              (.seq (.grp (.plus isDigitCh))
                (.seq (litI "_zpid") (.opt (litE "/"))))))))) from rfl]
  rw [results]
  rw [show litI "http" = RE.lit (chars "http" |>.map isI) from rfl]
  rw [results, hlit]
  rfl

theorem reSearch_zillow_whitespace (s : List Char)
    (hs : ∀ c ∈ s, pySpace c = true) : reSearch zillowRE s = none := by
  induction s with
  | nil =>
    rw [reSearch, show results zillowRE [] = [] from by decide]
  | cons c r ih =>
    rw [reSearch, results_zillow_whitespace_head c (hs c (List.mem_cons_self _ _)) r]
    exact ih (fun d hd => hs d (List.mem_cons_of_mem _ hd))

theorem reFindAll_of_search_none (re : RE) (s : List Char)
    (h : reSearch re s = none) : reFindAll re s = [] := by
  unfold reFindAll reFindAllGo
  rw [h]

/-- C9: an empty or whitespace-only document yields the empty stub list (and
extraction is a total function on every string — no failure mode escapes). -/
theorem c9_whitespace_empty (doc : List Char)
    (h : ∀ c ∈ doc, pySpace c = true) :
    extract_listing_data_from_html doc = [] := by
  have hraw : reFindAll zillowRE doc = [] :=
    reFindAll_of_search_none _ _ (reSearch_zillow_whitespace doc h)
  unfold extract_listing_data_from_html
  dsimp only
  rw [preprocess_whitespace doc h]
  cases hd : doc with
  | nil => decide
  | cons c r =>
    subst hd
    have hnodes : parseHTML (c :: r) = [.text (c :: r)] := by
      unfold parseHTML tokenize
      rw [tokGo_text (c :: r) h []]
      simp [emitText, buildGo, addChild, unwindAll]
    rw [hnodes]
    have htab : (elemsOfNodes [Node.text (c :: r)]).filter isCardTable = [] := rfl
    rw [htab]
    have hstruct : structGo [] [] = ([], []) := rfl
    rw [hstruct]
    simp only [List.isEmpty_nil, if_true]
    unfold extract_urls_with_address_fallback
    have hanch : anchorHrefs [Node.text (c :: r)] = [] := rfl
    rw [hanch, hraw]
    rfl

/-- Witness for C9: the whitespace document `" \n\t "` extracts to `[]`. -/
theorem c9_witness :
    (∀ c ∈ chars " \n\t ", pySpace c = true) ∧
      extract_listing_data_from_html (chars " \n\t ") = [] :=
  ⟨by decide, c9_whitespace_empty (chars " \n\t ") (by decide)⟩

/-! ## Regex-engine soundness lemmas -/

theorem litMatch_isE_append (w rest : List Char) :
    litMatch (w.map isE) (w ++ rest) = some rest := by
  induction w with
  | nil => rfl
  | cons c ws ih => simp [litMatch, isE, ih]

theorem results_seq_lit_none (ps : List (Char → Bool)) (b : RE) (s : List Char)
    (h : litMatch ps s = none) : results (.seq (.lit ps) b) s = [] := by
  rw [results, results, h]
  rfl

theorem greedySplits_decomp (p : Char → Bool) (v t : List Char)
    (h : t ∈ greedySplits p v) : ∃ w, v = w ++ t ∧ ∀ x ∈ w, p x = true := by
  induction v with
  | nil =>
    simp only [greedySplits, List.mem_singleton] at h
    exact ⟨[], by simp [h], by simp⟩
  | cons c v2 ih =>
    rw [greedySplits] at h
    rcases List.mem_append.1 h with h1 | h2
    · by_cases hp : p c
      · rw [if_pos hp] at h1
        obtain ⟨w, hw, hwp⟩ := ih h1
        refine ⟨c :: w, by simp [hw], ?_⟩
        intro x hx
        rcases List.mem_cons.1 hx with rfl | hx
        · exact hp
        · exact hwp x hx
      · rw [if_neg hp] at h1
        cases h1
    · simp only [List.mem_singleton] at h2
      exact ⟨[], by simp [h2], by simp⟩

theorem mem_results_lit {ps : List (Char → Bool)} {s r : List Char}
    {c : Option (List Char)} (h : (r, c) ∈ results (.lit ps) s) :
    c = none ∧ litMatch ps s = some r := by
  rw [results] at h
  cases hm : litMatch ps s with
  | none => rw [hm] at h; cases h
  | some r0 =>
    rw [hm] at h
    simp only [List.mem_singleton, Prod.mk.injEq] at h
    exact ⟨h.2, by rw [h.1]⟩

theorem mem_results_alt {a b : RE} {s r : List Char} {c : Option (List Char)}
    (h : (r, c) ∈ results (.alt a b) s) :
    (r, c) ∈ results a s ∨ (r, c) ∈ results b s := by
  rw [results] at h
  exact List.mem_append.1 h

theorem mem_results_seq {a b : RE} {s r : List Char} {c : Option (List Char)}
    (h : (r, c) ∈ results (.seq a b) s) :
    ∃ r1 c1 c2, (r1, c1) ∈ results a s ∧ (r, c2) ∈ results b r1 ∧
      c = c1.orElse (fun _ => c2) := by
  rw [results, List.mem_flatMap] at h
  obtain ⟨x, hx, hmem⟩ := h
  rw [List.mem_map] at hmem
  obtain ⟨y, hy, heq⟩ := hmem
  obtain ⟨x1, x2⟩ := x
  obtain ⟨y1, y2⟩ := y
  simp only [Prod.mk.injEq] at heq
  obtain ⟨h1, h2⟩ := heq
  subst h1
  exact ⟨x1, x2, y2, hx, hy, h2.symm⟩

theorem mem_results_grp_plus {p : Char → Bool} {s r : List Char}
    {c : Option (List Char)} (h : (r, c) ∈ results (.grp (.plus p)) s) :
    ∃ d, c = some d ∧ d ≠ [] ∧ (∀ x ∈ d, p x = true) ∧ s = d ++ r := by
  rw [results, List.mem_map] at h
  obtain ⟨x, hx, heq⟩ := h
  cases s with
  | nil => rw [results] at hx; cases hx
  | cons c0 r0 =>
    rw [results] at hx
    by_cases hp : p c0
    · rw [if_pos hp] at hx
      rw [List.mem_map] at hx
      obtain ⟨t, ht, hxt⟩ := hx
      obtain ⟨w, hw, hwp⟩ := greedySplits_decomp p r0 t ht
      subst hxt
      injection heq with h1 h2
      subst h1
      subst h2
      refine ⟨c0 :: w, ?_, List.cons_ne_nil _ _, ?_, ?_⟩
      · congr 1
        have hs : c0 :: r0 = (c0 :: w) ++ t := by rw [hw]; rfl
        rw [hs, List.length_append, Nat.add_sub_cancel, List.take_left]
      · intro x hx
        rcases List.mem_cons.1 hx with rfl | hx
        · exact hp
        · exact hwp x hx
      · rw [hw]
        rfl
    · rw [if_neg hp] at hx
      cases hx

theorem reSearch_results_head (re : RE) (l full rest : List Char)
    (cap : Option (List Char)) (h : reSearch re l = some (full, rest, cap)) :
    ∃ s t, results re s = (rest, cap) :: t := by
  induction l with
  | nil =>
    rw [reSearch] at h
    cases hr : results re [] with
    | nil => rw [hr] at h; cases h
    | cons x t =>
      obtain ⟨x1, x2⟩ := x
      rw [hr] at h
      simp only [Option.some.injEq, Prod.mk.injEq] at h
      exact ⟨[], t, by rw [hr, h.2.1, h.2.2]⟩
  | cons ch r ih =>
    rw [reSearch] at h
    cases hr : results re (ch :: r) with
    | nil => rw [hr] at h; exact ih h
    | cons x t =>
      obtain ⟨x1, x2⟩ := x
      rw [hr] at h
      simp only [Option.some.injEq, Prod.mk.injEq] at h
      exact ⟨ch :: r, t, by rw [hr, h.2.1, h.2.2]⟩

theorem reSearch_eq_none_of_all (re : RE) (l : List Char)
    (h : ∀ s, s <:+ l → results re s = []) : reSearch re l = none := by
  induction l with
  | nil => rw [reSearch, h [] List.nil_suffix]
  | cons c r ih =>
    rw [reSearch, h (c :: r) (List.suffix_refl _)]
    exact ih (fun s hs => h s (hs.trans (List.suffix_cons c r)))

theorem suffix_append_cases {s a b : List Char} (h : s <:+ a ++ b) :
    s <:+ b ∨ ∃ a', a' <:+ a ∧ a' ≠ [] ∧ s = a' ++ b := by
  induction a with
  | nil => exact Or.inl (by simpa using h)
  | cons c a2 ih =>
    rw [List.cons_append, List.suffix_cons_iff] at h
    rcases h with rfl | h2
    · exact Or.inr ⟨c :: a2, List.suffix_refl _, by simp, by simp⟩
    · rcases ih h2 with h3 | ⟨a', ha', hne, rfl⟩
      · exact Or.inl h3
      · exact Or.inr ⟨a', ha'.trans (List.suffix_cons c a2), hne, rfl⟩

/-! ## The slug pattern cannot match a synthesized canonical URL -/

theorem digit_ne_char {c : Char} (hc : isDigitCh c = true) {d : Char}
    (hd : isDigitCh d = false) : c ≠ d := by
  intro h
  rw [h, hd] at hc
  cases hc

theorem results_slugAfter_append (w : List Char) (hw : ∀ x ∈ w, nonSlash x = true) :
    results slugAfterRE (w ++ ['/']) = [] := by
  cases w with
  | nil => decide
  | cons d w2 =>
    have hd : d ≠ '/' := by
      have := hw d (List.mem_cons_self _ _)
      simpa [nonSlash] using this
    show results (.seq (.lit (['/'].map isE)) (.seq (.plus isDigitCh) (litE "_zpid")))
      (d :: (w2 ++ ['/'])) = []
    apply results_seq_lit_none
    simp [litMatch, isE, hd]

theorem greedySplits_slash_shape (v t : List Char)
    (hv : ∀ x ∈ v, nonSlash x = true)
    (ht : t ∈ greedySplits nonSlash (v ++ ['/'])) :
    ∃ w, t = w ++ ['/'] ∧ ∀ x ∈ w, nonSlash x = true := by
  obtain ⟨w0, hw0, hw0p⟩ := greedySplits_decomp _ _ _ ht
  have hsuf : t <:+ v ++ ['/'] := ⟨w0, hw0.symm⟩
  rcases suffix_append_cases hsuf with h1 | ⟨a', ha', hne, rfl⟩
  · rcases List.suffix_cons_iff.1 h1 with rfl | h2
    · exact ⟨[], rfl, by simp⟩
    · exfalso
      rw [List.suffix_nil] at h2
      subst h2
      have hmem : '/' ∈ w0 := by
        have : '/' ∈ w0 ++ ([] : List Char) := by
          rw [← hw0]
          exact List.mem_append.2 (Or.inr (List.mem_singleton.2 rfl))
        simpa using this
      have := hw0p '/' hmem
      simp [nonSlash] at this
  · exact ⟨a', rfl, fun x hx => hv x (ha'.subset hx)⟩

theorem results_slugTail_append (u : List Char) (hu : ∀ x ∈ u, nonSlash x = true) :
    results slugTailRE (u ++ ['/']) = [] := by
  cases u with
  | nil => decide
  | cons c0 u2 =>
    show results (.seq (.grp (.plus nonSlash)) slugAfterRE) (c0 :: (u2 ++ ['/'])) = []
    rw [results]
    apply List.flatMap_eq_nil_iff.2
    intro x hx
    rw [results, List.mem_map] at hx
    obtain ⟨y, hy, rfl⟩ := hx
    rw [results] at hy
    rw [if_pos (hu c0 (List.mem_cons_self _ _))] at hy
    rw [List.mem_map] at hy
    obtain ⟨t, ht, rfl⟩ := hy
    obtain ⟨w, rfl, hwp⟩ := greedySplits_slash_shape u2 t
      (fun x hx => hu x (List.mem_cons_of_mem _ hx)) ht
    rw [results_slugAfter_append w hwp]
    rfl

theorem results_slug_lit_none (s : List Char)
    (h : litMatch ((chars "/homedetails/").map isE) s = none) :
    results slugRE s = [] := by
  show results (.seq (.lit ((chars "/homedetails/").map isE)) slugTailRE) s = []
  exact results_seq_lit_none _ _ _ h

theorem results_slug_head2 (c1 c2 : Char) (r : List Char)
    (h : c1 ≠ '/' ∨ c2 ≠ 'h') : results slugRE (c1 :: c2 :: r) = [] := by
  apply results_slug_lit_none
  show litMatch (List.map isE ('/' :: 'h' :: chars "omedetails/")) (c1 :: c2 :: r) = none
  rcases h with h | h
  · simp [litMatch, isE, h]
  · by_cases h1 : c1 = '/'
    · simp [litMatch, isE, h1, h]
    · simp [litMatch, isE, h1]

theorem results_slug_at_match (z : List Char) (hdig : ∀ c ∈ z, isDigitCh c = true) :
    results slugRE (chars "/homedetails/" ++ (z ++ chars "_zpid/")) = [] := by
  show results (.seq (.lit ((chars "/homedetails/").map isE)) slugTailRE)
    (chars "/homedetails/" ++ (z ++ chars "_zpid/")) = []
  rw [results, results, litMatch_isE_append]
  have htail : results slugTailRE (z ++ chars "_zpid/") = [] := by
    rw [show chars "_zpid/" = chars "_zpid" ++ ['/'] from rfl, ← List.append_assoc]
    apply results_slugTail_append
    intro x hx
    rcases List.mem_append.1 hx with h1 | h2
    · have hxd := hdig x h1
      have : x ≠ '/' := digit_ne_char hxd (by decide)
      simp [nonSlash, this]
    · have : ∀ y ∈ chars "_zpid", nonSlash y = true := by decide
      exact this x h2
  simp [htail]

theorem results_slug_template (z : List Char) (hz : z ≠ [])
    (hdig : ∀ c ∈ z, isDigitCh c = true) :
    ∀ s, s <:+ templateUrl z → results slugRE s = [] := by
  obtain ⟨zc, zrest, rfl⟩ := List.exists_cons_of_ne_nil hz
  have hzc : isDigitCh zc = true := hdig zc (List.mem_cons_self _ _)
  have hzch : zc ≠ 'h' := digit_ne_char hzc (by decide)
  intro s hs
  rw [show templateUrl (zc :: zrest) =
      chars "https://www.zillow.com/homedetails/" ++
        ((zc :: zrest) ++ chars "_zpid/") from by
    rw [templateUrl, List.append_assoc]] at hs
  rcases suffix_append_cases hs with h1 | ⟨p', hp', hp'ne, rfl⟩
  · rcases suffix_append_cases h1 with h2 | ⟨z', hz', hz'ne, rfl⟩
    · have hm : s ∈ (chars "_zpid/").tails := (List.mem_tails _ _).2 h2
      fin_cases hm <;> decide
    · obtain ⟨c', z2', rfl⟩ := List.exists_cons_of_ne_nil hz'ne
      have hc' : isDigitCh c' = true := hdig c' (hz'.subset (List.mem_cons_self _ _))
      cases z2' with
      | nil =>
        exact results_slug_head2 c' '_' (chars "zpid/")
          (Or.inl (digit_ne_char hc' (by decide)))
      | cons e es =>
        exact results_slug_head2 c' e (es ++ chars "_zpid/")
          (Or.inl (digit_ne_char hc' (by decide)))
  · have hm : p' ∈ (chars "https://www.zillow.com/homedetails/").tails :=
      (List.mem_tails _ _).2 hp'
    fin_cases hm <;>
      first
        | exact absurd rfl hp'ne
        | exact results_slug_at_match (zc :: zrest) hdig
        | (simp only [List.cons_append, List.nil_append]
           exact results_slug_head2 _ _ _ (by
             first
               | (left ; decide)
               | (right ; decide)
               | (right ; exact hzch)))

/-! ## The secondary capture is a non-empty digit run -/

theorem zpidTarget_capture {s r z : List Char}
    (h : (r, some z) ∈ results zpidTargetRE s) :
    z ≠ [] ∧ ∀ c ∈ z, isDigitCh c = true := by
  have h0 : (r, some z) ∈ results
      (.seq (.lit ((chars "zpid_target").map isI))
        (.seq (.alt (.lit (['/'].map isE)) (.lit ((chars "%2f").map isI)))
          (.seq (.grp (.plus isDigitCh)) (.lit ((chars "_zpid").map isI))))) s := h
  obtain ⟨r1, c1, c2, hlit, hrest, hc⟩ := mem_results_seq h0
  obtain ⟨hc1, -⟩ := mem_results_lit hlit
  subst hc1
  simp only [Option.orElse] at hc
  obtain ⟨r2, c1', c2', halt, hrest2, hc2⟩ := mem_results_seq hrest
  have hc1' : c1' = none := by
    rcases mem_results_alt halt with h' | h'
    · exact (mem_results_lit h').1
    · exact (mem_results_lit h').1
  subst hc1'
  simp only [Option.orElse] at hc2
  obtain ⟨r3, cg, cl, hgrp, hlit2, hc3⟩ := mem_results_seq hrest2
  obtain ⟨d, hcg, hdne, hdp, -⟩ := mem_results_grp_plus hgrp
  subst hcg
  simp only [Option.orElse] at hc3
  subst hc3
  subst hc2
  have hz : z = d := by
    have := hc
    simp only [Option.some.injEq] at this
    exact this
  subst hz
  exact ⟨hdne, hdp⟩

theorem tryTable_secondary_props (t : Node) (u z : List Char)
    (h1 : reSearch zillowRE (serializeNode t) = none)
    (h2 : tryTable t = some (u, z)) :
    u = templateUrl z ∧ z ≠ [] ∧ ∀ c ∈ z, isDigitCh c = true := by
  simp only [tryTable, h1] at h2
  rcases hz : reSearch zpidTargetRE (serializeNode t) with _ | ⟨f, r, cap⟩
  · rw [hz] at h2
    cases h2
  · rw [hz] at h2
    rcases cap with _ | z'
    · cases h2
    · simp only [Option.some.injEq, Prod.mk.injEq] at h2
      obtain ⟨hu, hzz⟩ := h2
      obtain ⟨s', t', hres⟩ := reSearch_results_head _ _ _ _ _ hz
      have hmem : (r, some z') ∈ results zpidTargetRE s' := by
        rw [hres]
        exact List.mem_cons_self _ _
      obtain ⟨hne, hdig⟩ := zpidTarget_capture hmem
      rw [← hzz]
      exact ⟨hu.symm, hne, hdig⟩

theorem address_from_url_template (z : List Char) (hz : z ≠ [])
    (hdig : ∀ c ∈ z, isDigitCh c = true) :
    address_from_url (templateUrl z) = [] := by
  unfold address_from_url
  rw [reSearch_eq_none_of_all slugRE (templateUrl z) (results_slug_template z hz hdig)]

/-! ## Claims -/

/-- C1 (code bug): the spec says the fallback raw-text pass scans only the
preprocessed (truncated) document, so identifiers occurring strictly after a
"Check out these similar homes" marker never appear in the output.  The code
passes the original `html` (not `parse_html`) to the fallback at line 103, so
on `c1doc` — marker at offset 0, identifier `123` strictly after it, no card
tables — the extractor emits the post-marker identifier. -/
theorem c1_post_marker_id_emitted :
    pyFind c1doc simMarker = some 0 ∧
    extract_listing_data_from_html c1doc =
      [{ url := chars "https://www.zillow.com/homedetails/123_zpid/",
         zpid := chars "123", address := [], price := 0 }] := by
  constructor
  · decide
  · decide

/-- C3 counterexample: on `c3doc` the similar-homes marker occurs at offset 0
and the recommendations marker at offset 30, yet the preprocessor truncates at
offset 30 (the first marker in priority order), not at the earliest offset —
truncating at the earliest marker would give the empty document. -/
theorem c3_counterexample :
    pyFind c3doc simMarker = some 0 ∧
    pyFind c3doc recMarker = some 30 ∧
    preprocess c3doc = chars "Check out these similar homesX" ∧
    chars "Check out these similar homesX" ≠ [] := by
  refine ⟨by decide, by decide, by decide, by decide⟩

/-- C3 (amended): the preprocessor truncates at the first marker found in the
fixed priority order ("Our recommendations for you" before "Check out these
similar homes"), regardless of byte offset: whenever both markers occur, the
document is truncated strictly before the recommendations marker. -/
theorem c3_priority_truncation (doc : List Char) (i j : Nat)
    (h1 : pyFind doc recMarker = some i) (_h2 : pyFind doc simMarker = some j) :
    preprocess doc = doc.take i := by
  unfold preprocess
  rw [h1]

/-- Witness for C3: on `c3doc` both markers occur and the output is the
30-character prefix. -/
theorem c3_witness : preprocess c3doc = c3doc.take 30 :=
  c3_priority_truncation c3doc 30 0 (by decide) (by decide)

/-- C4 counterexample: the primary pattern requires an `http`/`https` scheme;
it does not match a scheme-relative URL, and a document whose only listing
link is scheme-relative yields no stub at all. -/
theorem c4_counterexample :
    reSearch zillowRE
      (chars "//www.zillow.com/homedetails/9-Oak-Ln-Derry-NH/777_zpid/") = none ∧
    extract_listing_data_from_html c4relDoc = [] := by
  refine ⟨by decide, by decide⟩

/-- C4 (amended): the primary pattern matches absolute `http`/`https` URLs of
the `.../homedetails/<optional-slug>/<digits>_zpid/` form case-insensitively
(here an upper-case scheme), but not scheme-relative URLs: the absolute-link
document yields the stub, the scheme-relative variant yields nothing. -/
theorem c4_absolute_only :
    extract_listing_data_from_html c4absDoc =
      [{ url := chars "HTTPS://www.zillow.com/homedetails/9-Oak-Ln-Derry-NH/777_zpid/",
         zpid := chars "777", address := chars "9 Oak Ln Derry NH", price := 0 }] ∧
    extract_listing_data_from_html c4relDoc = [] := by
  refine ⟨by decide, by decide⟩

/-- C5 counterexample: a document whose card block displays the price `-5`
produces a stub with a negative price, refuting "price is never negative"
over all input documents. -/
theorem c5_counterexample :
    extract_listing_data_from_html c5doc =
      [{ url := chars "https://www.zillow.com/homedetails/1_zpid/",
         zpid := chars "1", address := [], price := -5 }] ∧
    (-5 : Int) < 0 := by
  refine ⟨by decide, by decide⟩

/-- C6: price parsing — a `$485,000` display yields `485000` (currency symbol
and separators stripped, parsed as an integer); a `TBD` display and an absent
price element both yield the default `0`. -/
theorem c6_price_parsing :
    extract_price_from_block blk485 = 485000 ∧
    extract_price_from_block blkTBD = 0 ∧
    extract_price_from_block blkNoPrice = 0 := by
  refine ⟨by decide, by decide, by decide⟩

/-- C7: whenever a block is matched only by the secondary (`zpid_target`)
pattern — the primary pattern finds nothing in the serialized block — the
emitted canonical URL is synthesized from the fixed template
`https://www.zillow.com/homedetails/<digits>_zpid/`. -/
theorem c7_secondary_canonical_url (t : Node) (u z : List Char)
    (h1 : reSearch zillowRE (serializeNode t) = none)
    (h2 : tryTable t = some (u, z)) :
    u = chars "https://www.zillow.com/homedetails/" ++ z ++ chars "_zpid/" := by
  simp only [tryTable, h1] at h2
  rcases hz : reSearch zpidTargetRE (serializeNode t) with _ | ⟨f, r, cap⟩
  · rw [hz] at h2
    cases h2
  · rw [hz] at h2
    rcases cap with _ | z'
    · cases h2
    · simp only [templateUrl, Option.some.injEq, Prod.mk.injEq] at h2
      rcases h2 with ⟨hu, hzz⟩
      rw [← hu, ← hzz]

/-- Witness for C7: the secondary-pattern table `t7` with identifier
`113449928` yields exactly
`https://www.zillow.com/homedetails/113449928_zpid/`. -/
theorem c7_witness :
    tryTable t7 =
      some (chars "https://www.zillow.com/homedetails/113449928_zpid/",
            chars "113449928") ∧
    chars "https://www.zillow.com/homedetails/113449928_zpid/" =
      chars "https://www.zillow.com/homedetails/" ++ chars "113449928" ++
        chars "_zpid/" :=
  ⟨by decide,
   c7_secondary_canonical_url t7
     (chars "https://www.zillow.com/homedetails/113449928_zpid/")
     (chars "113449928") (by decide) (by decide)⟩

/-- C8: fallback activation — a document with no recognizable card containers
but one anchor linking to
`https://www.zillow.com/homedetails/99-Pine-Ave-Nashua-NH/55555555_zpid/`
yields exactly one stub, with identifier `55555555` (the raw-text pass skips
the identifier the anchor pass already captured). -/
theorem c8_fallback_activation :
    extract_listing_data_from_html c8doc =
      [{ url := chars "https://www.zillow.com/homedetails/99-Pine-Ave-Nashua-NH/55555555_zpid/",
         zpid := chars "55555555", address := chars "99 Pine Ave Nashua NH",
         price := 0 }] := by
  decide

/-- C2: for every single document and every batch processed in one run, the
returned `zpid` values are pairwise distinct, and the batch output is exactly
the first-seen-order deduplication of the concatenated per-document
extractions (earliest occurrence wins, later occurrences dropped). -/
theorem c2_unique_first_seen (docs : List (List Char)) (doc : List Char) :
    ((extract_listing_data_from_html doc).map ListingLink.zpid).Nodup ∧
      ((fetch_new_listing_urls docs).map ListingLink.zpid).Nodup ∧
      fetch_new_listing_urls docs =
        (dedupStep (docs.flatMap extract_listing_data_from_html) []).1 := by
  refine ⟨extract_zpids_nodup doc, ?_, batchGo_eq docs []⟩
  unfold fetch_new_listing_urls
  rw [batchGo_eq]
  exact (dedupStep_zpid_spec _ _).1

/-- C5 (amended): the extracted price is nonnegative for every block whose
price display contains no minus sign — in particular for every absent or
unparsable display, which defaults to `0`.  (A display that is itself a
negative integer literal is copied through, so "never negative" does not hold
over all conceivable documents; see the counterexample.) -/
theorem c5_price_nonneg (block : Node)
    (h : ∀ t, firstH5 block = some t → '-' ∉ getTextConcat t) :
    0 ≤ extract_price_from_block block := by
  unfold extract_price_from_block
  rcases h5 : firstH5 block with _ | t
  · simp
  · rcases hp : pyInt (removeAll ',' (removeAll '$' (getTextConcat t))) with _ | n
    · simp [hp]
    · simp only [hp]
      by_contra hneg
      push_neg at hneg
      exact h t h5 (mem_removeAll (mem_removeAll (pyInt_neg hp hneg)))

/-- Witness for C5: the `$485,000` block has no minus sign in its display, so
its extracted price is nonnegative. -/
theorem c5_witness : 0 ≤ extract_price_from_block blk485 :=
  c5_price_nonneg blk485 (by
    intro t ht
    have he : firstH5 blk485 =
        some (Node.elem (chars "h5") [] [.text (chars "$485,000")]) := rfl
    rw [he] at ht
    injection ht with ht
    rw [← ht]
    decide)

/-- C10: every stub produced through the secondary (`zpid_target`) pattern
whose block text has no line matching the address heuristic ends up with an
empty address: the URL-slug fallback always fails on the synthesized canonical
URL, because `https://www.zillow.com/homedetails/<digits>_zpid/` has no slug
segment between `/homedetails/` and `<digits>_zpid` for
`/homedetails/([^/]+)/\d+_zpid` to match. -/
theorem c10_secondary_empty_address (t : Node) (u z : List Char)
    (h1 : reSearch zillowRE (serializeNode t) = none)
    (h2 : tryTable t = some (u, z))
    (h3 : extract_address_from_block t = []) :
    (mkLink t u z).address = [] := by
  obtain ⟨hu, hz, hdig⟩ := tryTable_secondary_props t u z h1 h2
  simp only [mkLink]
  rw [h3]
  simp only [List.isEmpty_nil, if_true]
  rw [hu]
  exact address_from_url_template z hz hdig

/-- Witness for C10: the secondary-pattern table `t7` yields a stub with an
empty address. -/
theorem c10_witness :
    (mkLink t7 (chars "https://www.zillow.com/homedetails/113449928_zpid/")
      (chars "113449928")).address = [] :=
  c10_secondary_empty_address t7
    (chars "https://www.zillow.com/homedetails/113449928_zpid/")
    (chars "113449928") (by decide) (by decide) (by decide)

end Realtor
